import Mathlib

/-!
# Verification of the adiabatic-theorem notebook

Shallow embedding of `adiabatic_theorem.ipynb`.  The notebook samples two
random 2×2 Hermitian matrices `A`, `B`, integrates the matrix ODE
`dU/dt = -i H(t) U` with `H(t) = (1 - t/T) A + (t/T) B` over a sweep of
total times `T`, and reports `|[U(T)† B U(T)]_{01}|` for each `T`.

Complex numbers are embedded as pairs over an arbitrary field `K`
(`K = ℝ` models the float arithmetic exactly; `K = ℚ` gives decidable
instances for concrete evaluations).  The external `scipy` solver is an
abstract parameter; the external random draws are inputs.
-/

/-- A complex number over the scalar field `K`: real and imaginary part. -/
@[ext]
structure Cx (K : Type) where
  re : K
  im : K
deriving DecidableEq

namespace Cx

variable {K : Type} [Field K]

/-- Complex addition, componentwise. -/
def add (z w : Cx K) : Cx K := ⟨z.re + w.re, z.im + w.im⟩

instance : Add (Cx K) := ⟨Cx.add⟩

/-- Complex subtraction, componentwise. -/
def sub (z w : Cx K) : Cx K := ⟨z.re - w.re, z.im - w.im⟩

instance : Sub (Cx K) := ⟨Cx.sub⟩

/-- Complex multiplication. -/
def mul (z w : Cx K) : Cx K :=
  ⟨z.re * w.re - z.im * w.im, z.re * w.im + z.im * w.re⟩

instance : Mul (Cx K) := ⟨Cx.mul⟩

/-- Complex conjugation (`np.conj`). -/
def conj (z : Cx K) : Cx K := ⟨z.re, -z.im⟩

/-- Multiplication by a real scalar. -/
def smulR (k : K) (z : Cx K) : Cx K := ⟨k * z.re, k * z.im⟩

instance : SMul K (Cx K) := ⟨Cx.smulR⟩

/-- Division by a real scalar. -/
def divR (z : Cx K) (k : K) : Cx K := ⟨z.re / k, z.im / k⟩

instance : Zero (Cx K) := ⟨⟨0, 0⟩⟩

instance : One (Cx K) := ⟨⟨1, 0⟩⟩

/-- Squared modulus; `np.absolute z = Real.sqrt z.absSq`. -/
def absSq (z : Cx K) : K := z.re ^ 2 + z.im ^ 2

@[simp] lemma add_re (z w : Cx K) : (z + w).re = z.re + w.re := rfl

@[simp] lemma add_im (z w : Cx K) : (z + w).im = z.im + w.im := rfl

@[simp] lemma sub_re (z w : Cx K) : (z - w).re = z.re - w.re := rfl

@[simp] lemma sub_im (z w : Cx K) : (z - w).im = z.im - w.im := rfl

@[simp] lemma mul_re (z w : Cx K) : (z * w).re = z.re * w.re - z.im * w.im := rfl

@[simp] lemma mul_im (z w : Cx K) : (z * w).im = z.re * w.im + z.im * w.re := rfl

@[simp] lemma conj_re (z : Cx K) : z.conj.re = z.re := rfl

@[simp] lemma conj_im (z : Cx K) : z.conj.im = -z.im := rfl

@[simp] lemma smul_re (k : K) (z : Cx K) : (k • z).re = k * z.re := rfl

@[simp] lemma smul_im (k : K) (z : Cx K) : (k • z).im = k * z.im := rfl

@[simp] lemma divR_re (z : Cx K) (k : K) : (z.divR k).re = z.re / k := rfl

@[simp] lemma divR_im (z : Cx K) (k : K) : (z.divR k).im = z.im / k := rfl

@[simp] lemma zero_re : (0 : Cx K).re = 0 := rfl

@[simp] lemma zero_im : (0 : Cx K).im = 0 := rfl

@[simp] lemma one_re : (1 : Cx K).re = 1 := rfl

@[simp] lemma one_im : (1 : Cx K).im = 0 := rfl

end Cx

/-- A 2×2 complex matrix; `eij` is the entry in row `i`, column `j`. -/
@[ext]
structure M2 (K : Type) where
  e00 : Cx K
  e01 : Cx K
  e10 : Cx K
  e11 : Cx K
deriving DecidableEq

namespace M2

variable {K : Type} [Field K]

/-- Matrix addition. -/
def add (M N : M2 K) : M2 K :=
  ⟨M.e00 + N.e00, M.e01 + N.e01, M.e10 + N.e10, M.e11 + N.e11⟩

instance : Add (M2 K) := ⟨M2.add⟩

/-- Matrix subtraction. -/
def sub (M N : M2 K) : M2 K :=
  ⟨M.e00 - N.e00, M.e01 - N.e01, M.e10 - N.e10, M.e11 - N.e11⟩

instance : Sub (M2 K) := ⟨M2.sub⟩

/-- Matrix product (`@`). -/
def mul (M N : M2 K) : M2 K :=
  ⟨M.e00 * N.e00 + M.e01 * N.e10, M.e00 * N.e01 + M.e01 * N.e11,
   M.e10 * N.e00 + M.e11 * N.e10, M.e10 * N.e01 + M.e11 * N.e11⟩

instance : Mul (M2 K) := ⟨M2.mul⟩

/-- Conjugate transpose (`np.conj(M.T)`). -/
def conjT (M : M2 K) : M2 K :=
  ⟨M.e00.conj, M.e10.conj, M.e01.conj, M.e11.conj⟩

/-- Real scalar times a matrix. -/
def smulR (k : K) (M : M2 K) : M2 K :=
  ⟨k • M.e00, k • M.e01, k • M.e10, k • M.e11⟩

instance : SMul K (M2 K) := ⟨M2.smulR⟩

/-- Complex scalar times a matrix (used for `-1j * ...`). -/
def csmul (z : Cx K) (M : M2 K) : M2 K :=
  ⟨z * M.e00, z * M.e01, z * M.e10, z * M.e11⟩

/-- Matrix divided by a real scalar. -/
def divR (M : M2 K) (k : K) : M2 K :=
  ⟨M.e00.divR k, M.e01.divR k, M.e10.divR k, M.e11.divR k⟩

instance : Zero (M2 K) := ⟨⟨0, 0, 0, 0⟩⟩

instance : One (M2 K) := ⟨⟨1, 0, 0, 1⟩⟩

@[simp] lemma add_e00 (M N : M2 K) : (M + N).e00 = M.e00 + N.e00 := rfl

@[simp] lemma add_e01 (M N : M2 K) : (M + N).e01 = M.e01 + N.e01 := rfl

@[simp] lemma add_e10 (M N : M2 K) : (M + N).e10 = M.e10 + N.e10 := rfl

@[simp] lemma add_e11 (M N : M2 K) : (M + N).e11 = M.e11 + N.e11 := rfl

@[simp] lemma sub_e00 (M N : M2 K) : (M - N).e00 = M.e00 - N.e00 := rfl

@[simp] lemma sub_e01 (M N : M2 K) : (M - N).e01 = M.e01 - N.e01 := rfl

@[simp] lemma sub_e10 (M N : M2 K) : (M - N).e10 = M.e10 - N.e10 := rfl

@[simp] lemma sub_e11 (M N : M2 K) : (M - N).e11 = M.e11 - N.e11 := rfl

@[simp] lemma mul_e00 (M N : M2 K) : (M * N).e00 = M.e00 * N.e00 + M.e01 * N.e10 := rfl

@[simp] lemma mul_e01 (M N : M2 K) : (M * N).e01 = M.e00 * N.e01 + M.e01 * N.e11 := rfl

@[simp] lemma mul_e10 (M N : M2 K) : (M * N).e10 = M.e10 * N.e00 + M.e11 * N.e10 := rfl

@[simp] lemma mul_e11 (M N : M2 K) : (M * N).e11 = M.e10 * N.e01 + M.e11 * N.e11 := rfl

@[simp] lemma conjT_e00 (M : M2 K) : M.conjT.e00 = M.e00.conj := rfl

@[simp] lemma conjT_e01 (M : M2 K) : M.conjT.e01 = M.e10.conj := rfl

@[simp] lemma conjT_e10 (M : M2 K) : M.conjT.e10 = M.e01.conj := rfl

@[simp] lemma conjT_e11 (M : M2 K) : M.conjT.e11 = M.e11.conj := rfl

@[simp] lemma smul_e00 (k : K) (M : M2 K) : (k • M).e00 = k • M.e00 := rfl

@[simp] lemma smul_e01 (k : K) (M : M2 K) : (k • M).e01 = k • M.e01 := rfl

@[simp] lemma smul_e10 (k : K) (M : M2 K) : (k • M).e10 = k • M.e10 := rfl

@[simp] lemma smul_e11 (k : K) (M : M2 K) : (k • M).e11 = k • M.e11 := rfl

@[simp] lemma csmul_e00 (z : Cx K) (M : M2 K) : (M2.csmul z M).e00 = z * M.e00 := rfl

@[simp] lemma csmul_e01 (z : Cx K) (M : M2 K) : (M2.csmul z M).e01 = z * M.e01 := rfl

@[simp] lemma csmul_e10 (z : Cx K) (M : M2 K) : (M2.csmul z M).e10 = z * M.e10 := rfl

@[simp] lemma csmul_e11 (z : Cx K) (M : M2 K) : (M2.csmul z M).e11 = z * M.e11 := rfl

@[simp] lemma divR_e00 (M : M2 K) (k : K) : (M.divR k).e00 = M.e00.divR k := rfl

@[simp] lemma divR_e01 (M : M2 K) (k : K) : (M.divR k).e01 = M.e01.divR k := rfl

@[simp] lemma divR_e10 (M : M2 K) (k : K) : (M.divR k).e10 = M.e10.divR k := rfl

@[simp] lemma divR_e11 (M : M2 K) (k : K) : (M.divR k).e11 = M.e11.divR k := rfl

@[simp] lemma zero_e00 : (0 : M2 K).e00 = 0 := rfl

@[simp] lemma zero_e01 : (0 : M2 K).e01 = 0 := rfl

@[simp] lemma zero_e10 : (0 : M2 K).e10 = 0 := rfl

@[simp] lemma zero_e11 : (0 : M2 K).e11 = 0 := rfl

@[simp] lemma one_e00 : (1 : M2 K).e00 = 1 := rfl

@[simp] lemma one_e01 : (1 : M2 K).e01 = 0 := rfl

@[simp] lemma one_e10 : (1 : M2 K).e10 = 0 := rfl

@[simp] lemma one_e11 : (1 : M2 K).e11 = 1 := rfl

/-- Conjugate transpose distributes over matrix sums. -/
lemma conjT_add (M N : M2 K) : (M + N).conjT = M.conjT + N.conjT := by
  ext <;> simp [conjT, Cx.conj] <;> ring

/-- Conjugate transpose commutes with real scalar multiplication. -/
lemma conjT_smulR (k : K) (M : M2 K) : (k • M).conjT = k • M.conjT := by
  ext <;> simp [conjT, Cx.conj] <;> ring

/-- Conjugate transpose of a matrix divided by a real scalar. -/
lemma conjT_divR (M : M2 K) (k : K) : (M.divR k).conjT = M.conjT.divR k := by
  ext <;> simp [conjT, Cx.conj, Cx.divR] <;> ring

/-- Conjugate transpose is an involution. -/
lemma conjT_conjT (M : M2 K) : M.conjT.conjT = M := by
  ext <;> simp [conjT, Cx.conj]

/-- Conjugate transpose reverses matrix products. -/
lemma conjT_mul (M N : M2 K) : (M * N).conjT = N.conjT * M.conjT := by
  ext <;> simp [conjT, Cx.conj, Cx.mul, Cx.add] <;> ring

/-- Matrix multiplication is associative. -/
lemma mul_assoc (M N P : M2 K) : M * N * P = M * (N * P) := by
  ext <;> simp [Cx.mul, Cx.add] <;> ring

/-- Matrix addition is commutative. -/
lemma add_comm (M N : M2 K) : M + N = N + M := by
  ext <;> simp <;> ring

end M2

/-! ## The notebook's functions -/

variable {K : Type}

/-- `sample_hermitian_matrix`: the two `np.random.randn(2, 2)` draws are
modeled as the input matrix `X = real_part + 1j * imag_part`; the function
returns `(X + X.conj().T) / 2`. -/
def sample_hermitian_matrix [Field K] (X : M2 K) : M2 K :=
  (X + X.conjT).divR 2

/-- `H(t) = (1 - t/T) * A + (t/T) * B`.  The module-level `A`, `B`, `T` read
by the Python closure are explicit parameters here. -/
def H [Field K] (A B : M2 K) (T t : K) : M2 K :=
  (1 - t / T) • A + (t / T) • B

/-- Python float division: raises `ZeroDivisionError` when the divisor is
zero, modeled as `none`. -/
def pydiv [Field K] [DecidableEq K] (a b : K) : Option K :=
  if b = 0 then none else some (a / b)

/-- `H` with the Python-level division failure made explicit: evaluating
`(1 - t/T) * A + (t/T) * B` raises iff `T = 0`. -/
def H_run [Field K] [DecidableEq K] (A B : M2 K) (T t : K) : Option (M2 K) :=
  (pydiv t T).map fun r => (1 - r) • A + r • B

/-! ### Encoding layer (cell 4) -/

/-- `complex_to_real_imag(x) = np.concatenate((np.real(x), np.imag(x)))`. -/
def complex_to_real_imag (x : List (Cx K)) : List K :=
  x.map Cx.re ++ x.map Cx.im

/-- `real_imag_to_complex(r) = r[:n_half] + 1j * r[n_half:]` with
`n_half = int(len(r)/2)`; numpy raises a shape mismatch when the length is
odd, modeled as `none`. -/
def real_imag_to_complex (r : List K) : Option (List (Cx K)) :=
  if r.length % 2 = 0 then
    some (List.zipWith (fun a b => Cx.mk a b)
      (r.take (r.length / 2)) (r.drop (r.length / 2)))
  else none

/-- Row-major flattening `matrix.flatten()` of a 2×2 matrix. -/
def M2.flatten (M : M2 K) : List (Cx K) :=
  [M.e00, M.e01, M.e10, M.e11]

/-- `matrix_to_flat(matrix) = complex_to_real_imag(matrix.flatten())`. -/
def matrix_to_flat (M : M2 K) : List K :=
  complex_to_real_imag M.flatten

/-- `flat_to_matrix(flattened) = real_imag_to_complex(flattened).reshape((2,2))`;
`reshape` raises unless the complex vector has length 4, modeled as `none`. -/
def flat_to_matrix (l : List K) : Option (M2 K) :=
  (real_imag_to_complex l).bind fun c =>
    match c with
    | [z0, z1, z2, z3] => some ⟨z0, z1, z2, z3⟩
    | _ => none

/-- `matrix_differential_equation(t, U_flat, H_func)`: decode the state,
form `dUdt = -1j * H_func(t) @ U`, re-encode.  Decoding a malformed state
raises, modeled as `none`. -/
def matrix_differential_equation [Field K] (t : K) (U_flat : List K)
    (H_func : K → M2 K) : Option (List K) :=
  (flat_to_matrix U_flat).map fun U =>
    matrix_to_flat (M2.csmul ⟨0, -1⟩ (H_func t * U))

/-! ### Round-trip helper lemmas -/

/-- Zipping the real and imaginary parts of a complex list back together
recovers the list. -/
lemma zipWith_re_im (x : List (Cx K)) :
    List.zipWith (fun a b => Cx.mk a b) (x.map Cx.re) (x.map Cx.im) = x := by
  induction x with
  | nil => rfl
  | cons z x ih => simp [ih]

/-- Vector-level round trip: decoding an encoded complex list returns it. -/
lemma real_imag_to_complex_comp (x : List (Cx K)) :
    real_imag_to_complex (complex_to_real_imag x) = some x := by
  have hlen : (complex_to_real_imag x).length = x.length + x.length := by
    simp [complex_to_real_imag]
  have hmod : (complex_to_real_imag x).length % 2 = 0 := by omega
  have hhalf : (complex_to_real_imag x).length / 2 = x.length := by omega
  have htake : (complex_to_real_imag x).take x.length = x.map Cx.re := by
    have := List.take_left (x.map Cx.re) (x.map Cx.im)
    simpa [complex_to_real_imag] using this
  have hdrop : (complex_to_real_imag x).drop x.length = x.map Cx.im := by
    have := List.drop_left (x.map Cx.re) (x.map Cx.im)
    simpa [complex_to_real_imag] using this
  rw [real_imag_to_complex, if_pos hmod, hhalf, htake, hdrop, zipWith_re_im]

/-- Matrix-level round trip as a helper lemma. -/
lemma flat_to_matrix_matrix_to_flat (M : M2 K) :
    flat_to_matrix (matrix_to_flat M) = some M := by
  obtain ⟨a, b, c, d⟩ := M
  rw [flat_to_matrix, matrix_to_flat, M2.flatten, real_imag_to_complex_comp]
  rfl

/-! ## Claims about the pure numerical layer -/

/-- **C3.** The encoding (real parts then imaginary parts, row-major
flattening) and its decoder are mutually inverse: for every 2×2 complex
matrix `M`, `flat_to_matrix (matrix_to_flat M) = M`, and for every complex
vector `x`, `real_imag_to_complex (complex_to_real_imag x) = x` (`some _`
renders the fact that the decoders are fallible numpy operations). -/
theorem encode_decode_roundtrip (K : Type) (M : M2 K) (x : List (Cx K)) :
    flat_to_matrix (matrix_to_flat M) = some M ∧
    real_imag_to_complex (complex_to_real_imag x) = some x :=
  ⟨flat_to_matrix_matrix_to_flat M, real_imag_to_complex_comp x⟩

/-- **C5.** For every pair of matrices `A`, `B` and every total duration
`T > 0`, the interpolator satisfies `H 0 = A` and `H T = B` exactly. -/
theorem H_endpoints (K : Type) [LinearOrderedField K] (A B : M2 K) (T : K)
    (hT : 0 < T) : H A B T 0 = A ∧ H A B T T = B := by
  have hT' : T ≠ 0 := ne_of_gt hT
  constructor
  · ext <;> simp [H] <;> ring
  · ext <;> simp [H] <;> (field_simp)

/-- **C6.** For Hermitian `A`, `B`, any `T > 0` and any `t ∈ [0, T]`, the
interpolated matrix `H t = (1 - t/T) • A + (t/T) • B` equals its own
conjugate transpose: the interpolation preserves Hermiticity. -/
theorem H_hermitian (K : Type) [LinearOrderedField K] (A B : M2 K) (T t : K)
    (hA : A.conjT = A) (hB : B.conjT = B) (hT : 0 < T) (ht0 : 0 ≤ t)
    (htT : t ≤ T) : (H A B T t).conjT = H A B T t := by
  rw [H, M2.conjT_add, M2.conjT_smulR, M2.conjT_smulR, hA, hB]

/-- **C7.** `sample_hermitian_matrix` returns `(X + X†)/2` for the drawn
complex matrix `X`, and every sampled matrix `M` satisfies `M† = M`
(equivalently `M - M†` is the zero matrix) in exact arithmetic. -/
theorem sample_hermitian_matrix_hermitian (K : Type) [Field K] (X : M2 K) :
    sample_hermitian_matrix X = (X + X.conjT).divR 2 ∧
    (sample_hermitian_matrix X).conjT = sample_hermitian_matrix X ∧
    sample_hermitian_matrix X - (sample_hermitian_matrix X).conjT = 0 := by
  have h : (sample_hermitian_matrix X).conjT = sample_hermitian_matrix X := by
    rw [sample_hermitian_matrix, M2.conjT_divR, M2.conjT_add, M2.conjT_conjT,
      M2.add_comm]
  refine ⟨rfl, h, ?_⟩
  rw [h]
  ext <;> simp <;> ring

/-- The rotated matrix `U† * B * U` of the deviation analysis. -/
def rotated [Field K] (B U : M2 K) : M2 K := U.conjT * B * U

/-- `np.absolute` on a complex number: the modulus. -/
noncomputable def Cabs (z : Cx ℝ) : ℝ := Real.sqrt (z.re ^ 2 + z.im ^ 2)

/-- The modulus is invariant under conjugation. -/
lemma Cabs_conj (z : Cx ℝ) : Cabs z.conj = Cabs z := by
  simp [Cabs, Cx.conj]

/-- **C8.** For Hermitian `B` and unitary `U`, the rotated matrix
`U† * B * U` is itself Hermitian, its `(1,0)` entry is the complex
conjugate of its `(0,1)` entry, and the two entries have equal modulus. -/
theorem rotated_hermitian (B U : M2 ℝ) (hB : B.conjT = B)
    (hU : U.conjT * U = 1) :
    (rotated B U).conjT = rotated B U ∧
    (rotated B U).e10 = (rotated B U).e01.conj ∧
    Cabs ((rotated B U).e10) = Cabs ((rotated B U).e01) := by
  have h : (rotated B U).conjT = rotated B U := by
    rw [rotated, M2.conjT_mul, M2.conjT_mul, M2.conjT_conjT, hB, M2.mul_assoc]
  have h10 : (rotated B U).e10 = (rotated B U).e01.conj := by
    conv_lhs => rw [← h]
    rfl
  exact ⟨h, h10, by rw [h10, Cabs_conj]⟩

/-! ## The sweep loop (cell 4's `for T in T_list`) -/

/-- The object returned by `scipy.integrate.solve_ivp`: a success flag and
the output array `y`, one list of values per state component, one value per
`t_eval` point the integrator reached.  The notebook never reads the flag;
on failure `scipy` truncates `y` at the point where integration stopped. -/
structure SolResult (K : Type) where
  success : Bool
  y : List (List K)

/-- The type of the external `solve_ivp` capability: it receives the
right-hand side, `t_span`, the initial state and the `t_eval` grid. -/
def SolveIvp (K : Type) : Type :=
  (K → List K → Option (List K)) → (K × K) → List K → List K → SolResult K

/-- `np.linspace(a, b, n)`: `n` equally spaced points from `a` to `b`. -/
def linspace [Field K] (a b : K) (n : ℕ) : List K :=
  (List.range n).map fun k : ℕ => a + (b - a) * (k : K) / ((n - 1 : ℕ) : K)

/-- `num_values = 100` (set inside the loop body). -/
def num_values : ℕ := 100

/-- `U_T_flat = np.array([solution.y[i][num_values] for i in range(8)])`:
out-of-range indexing raises `IndexError`, modeled as `none`.  When the
solver failed before reaching `t = T`, the final grid point is absent from
`y` and this extraction is what aborts the run. -/
def extractTerminal (sol : SolResult K) (n : ℕ) : Option (List K) :=
  (List.range 8).mapM fun i => (sol.y.get? i).bind fun row => row.get? n

/-- One iteration's numerical content, as a pure function of `T` alone
(plus the fixed `A`, `B`, flattened `U_A` and the solver): solve the ODE on
`[0, T]`, read the state at the final grid point, decode it.  A raised
`IndexError` (solver failure) or reshape error is `Except.error T`. -/
def integrateOne [Field K] (solver : SolveIvp K) (A B : M2 K)
    (U_A_flat : List K) (T : K) : Except K (M2 K) :=
  let H_func := fun t => H A B T t
  let rhs := fun t y => matrix_differential_equation t y H_func
  let sol := solver rhs (0, T) U_A_flat (linspace 0 T (num_values + 1))
  match extractTerminal sol num_values with
  | none => .error T
  | some flat =>
    match flat_to_matrix flat with
    | none => .error T
    | some U => .ok U

/-- The module-level mutable state threaded through the sweep: the global
`T` (rebound by `for T in T_list` and read by the closure `H`) and the
accumulator `U_T_list`. -/
structure Globals (K : Type) where
  T : K
  U_T_list : List (M2 K)

/-- One iteration of `for T in T_list`: rebind the global `T`, call
`solve_ivp` with the closure `H` (which reads the global `T`), extract the
state at grid index `num_values`, decode, append to `U_T_list`. -/
def sweepBody [Field K] (solver : SolveIvp K) (A B : M2 K)
    (U_A_flat : List K) (g : Globals K) (Tval : K) : Except K (Globals K) :=
  let g1 : Globals K := { g with T := Tval }
  let H_func := fun t => H A B g1.T t
  let rhs := fun t y => matrix_differential_equation t y H_func
  let sol := solver rhs (0, g1.T) U_A_flat (linspace 0 g1.T (num_values + 1))
  match extractTerminal sol num_values with
  | none => .error g1.T
  | some flat =>
    match flat_to_matrix flat with
    | none => .error g1.T
    | some U => .ok { g1 with U_T_list := g1.U_T_list ++ [U] }

/-- The sweep loop over the remaining `T` values, threading the globals. -/
def sweepGo [Field K] (solver : SolveIvp K) (A B : M2 K)
    (U_A_flat : List K) : Globals K → List K → Except K (Globals K)
  | g, [] => .ok g
  | g, Tval :: rest =>
    match sweepBody solver A B U_A_flat g Tval with
    | .error e => .error e
    | .ok g1 => sweepGo solver A B U_A_flat g1 rest

/-- The whole sweep: start from `U_T_list = []` (cell 3) and an arbitrary
prior value `T0` of the global `T`, run the loop, read off `U_T_list`. -/
def sweep [Field K] (solver : SolveIvp K) (A B : M2 K) (U_A_flat : List K)
    (T0 : K) (T_vals : List K) : Except K (List (M2 K)) :=
  (sweepGo solver A B U_A_flat ⟨T0, []⟩ T_vals).map fun g => g.U_T_list

/-- One loop iteration equals the pure per-`T` function, recording the
rebound global and the appended accumulator. -/
lemma sweepBody_eq_integrateOne [Field K] (solver : SolveIvp K)
    (A B : M2 K) (U_A_flat : List K) (g : Globals K) (Tval : K) :
    sweepBody solver A B U_A_flat g Tval =
      (integrateOne solver A B U_A_flat Tval).map
        fun U => ⟨Tval, g.U_T_list ++ [U]⟩ := by
  rw [sweepBody, integrateOne]
  cases extractTerminal
      (solver (fun t y => matrix_differential_equation t y fun s => H A B Tval s)
        (0, Tval) U_A_flat (linspace 0 Tval (num_values + 1))) num_values with
  | none => rfl
  | some flat =>
    cases hf : flat_to_matrix flat with
    | none => simp [hf, Except.map]
    | some U => simp [hf, Except.map]

/-- `Except.map` on an error, by computation. -/
lemma exceptMap_error {E A B : Type} (f : A → B) (e : E) :
    Except.map f (Except.error e) = Except.error e := rfl

/-- `Except.map` on a success, by computation. -/
lemma exceptMap_ok {E A B : Type} (f : A → B) (a : A) :
    Except.map f (Except.ok a : Except E A) = Except.ok (f a) := rfl

/-- The loop with its globals is the effectful map of the pure per-`T`
function, with the accumulator appended and the global `T` left at the
last swept value. -/
lemma sweepGo_eq_mapM [Field K] (solver : SolveIvp K) (A B : M2 K)
    (U_A_flat : List K) :
    ∀ (T_vals : List K) (g : Globals K),
      sweepGo solver A B U_A_flat g T_vals =
        (T_vals.mapM (integrateOne solver A B U_A_flat)).map
          fun l => ⟨T_vals.getLastD g.T, g.U_T_list ++ l⟩ := by
  intro T_vals
  induction T_vals with
  | nil =>
    intro g
    show Except.ok g = Except.map _ (pure [])
    rw [show (pure [] : Except K (List (M2 K))) = Except.ok [] from rfl,
      exceptMap_ok]
    simp
  | cons Tval rest ih =>
    intro g
    rw [sweepGo, sweepBody_eq_integrateOne, List.mapM_cons]
    cases hT : integrateOne solver A B U_A_flat Tval with
    | error e => rfl
    | ok U =>
      show sweepGo solver A B U_A_flat ⟨Tval, g.U_T_list ++ [U]⟩ rest = _
      rw [ih ⟨Tval, g.U_T_list ++ [U]⟩]
      cases hrest : rest.mapM (integrateOne solver A B U_A_flat) with
      | error e => rfl
      | ok l =>
        rw [exceptMap_ok]
        show Except.ok _ = Except.map _ (Except.ok (U :: l))
        rw [exceptMap_ok]
        simp only [List.append_assoc, List.singleton_append, Except.ok.injEq]
        cases rest with
        | nil => rfl
        | cons b r =>
          obtain ⟨x, hx⟩ := Option.isSome_iff_exists.mp
            (List.getLast?_isSome.mpr (List.cons_ne_nil b r))
          simp [List.getLast?_cons_cons, hx]

/-- If an effectful map succeeds, each output position holds the success
value of the pure function at the corresponding input position. -/
lemma mapM_ok_get {E A B : Type} (f : A → Except E B) :
    ∀ (l : List A) (res : List B), l.mapM f = Except.ok res →
      ∀ (j : ℕ) (a : A), l.get? j = some a →
        ∃ b, f a = Except.ok b ∧ res.get? j = some b := by
  intro l
  induction l with
  | nil => intro res h j a hj; simp at hj
  | cons x xs ih =>
    intro res h j a hj
    rw [List.mapM_cons] at h
    cases hx : f x with
    | error e => rw [hx] at h; exact Except.noConfusion h
    | ok b =>
      rw [hx] at h
      cases hxs : xs.mapM f with
      | error e => rw [hxs] at h; exact Except.noConfusion h
      | ok res1 =>
        rw [hxs] at h
        have hres : res = b :: res1 := by
          have h1 : (Except.ok (b :: res1) : Except E (List B)) = Except.ok res := h
          exact (Except.ok.inj h1).symm
        subst hres
        cases j with
        | zero =>
          obtain rfl : x = a := by simpa using hj
          exact ⟨b, hx, rfl⟩
        | succ j1 =>
          exact ih res1 hxs j1 a (by simpa using hj)

/-- If the pure function fails at any input position, the effectful map of
the whole list is an error. -/
lemma mapM_error_of_elem {E A B : Type} (f : A → Except E B) :
    ∀ (l : List A) (j : ℕ) (a : A) (e : E),
      l.get? j = some a → f a = Except.error e →
        ∃ e', l.mapM f = Except.error e' := by
  intro l
  induction l with
  | nil => intro j a e hj _; simp at hj
  | cons x xs ih =>
    intro j a e hj hfa
    cases j with
    | zero =>
      obtain rfl : x = a := by simpa using hj
      exact ⟨e, by rw [List.mapM_cons, hfa]; rfl⟩
    | succ j1 =>
      cases hx : f x with
      | error e0 => exact ⟨e0, by rw [List.mapM_cons, hx]; rfl⟩
      | ok b =>
        obtain ⟨e', he⟩ := ih j1 a e (by simpa using hj) hfa
        refine ⟨e', ?_⟩
        rw [List.mapM_cons, hx, he]
        rfl

/-- The sweep is the effectful map of the pure per-`T` integration over
`T_list`; the prior value `T0` of the global `T` is irrelevant. -/
lemma sweep_eq_mapM [Field K] (solver : SolveIvp K) (A B : M2 K)
    (U_A_flat : List K) (T0 : K) (T_vals : List K) :
    sweep solver A B U_A_flat T0 T_vals =
      T_vals.mapM (integrateOne solver A B U_A_flat) := by
  rw [sweep, sweepGo_eq_mapM]
  cases h : T_vals.mapM (integrateOne solver A B U_A_flat) with
  | error e => rfl
  | ok l => simp [exceptMap_ok]

/-- **C2.** The sweep loop with its module-level accumulator and global `T`
is equivalent to a pure map over `T_list`: the recorded terminal matrix at
position `j` is the integration result for `T_list[j]` alone, as a function
of `(T, A, B, U_A)` only — independent of the other entries, of the prior
global `T`, and of iteration order (`A`, `B`, `U_A` are parameters the
sweep never writes). -/
theorem sweep_is_pure_map (K : Type) [Field K] (solver : SolveIvp K)
    (A B : M2 K) (U_A_flat : List K) (T0 : K) (T_vals : List K) :
    sweep solver A B U_A_flat T0 T_vals =
      T_vals.mapM (integrateOne solver A B U_A_flat) ∧
    (∀ (res : List (M2 K)) (j : ℕ) (Tj : K),
      sweep solver A B U_A_flat T0 T_vals = Except.ok res →
      T_vals.get? j = some Tj →
        ∃ U, integrateOne solver A B U_A_flat Tj = Except.ok U ∧
          res.get? j = some U) := by
  refine ⟨sweep_eq_mapM solver A B U_A_flat T0 T_vals, ?_⟩
  intro res j Tj hok hTj
  rw [sweep_eq_mapM] at hok
  exact mapM_ok_get (integrateOne solver A B U_A_flat) T_vals res hok j Tj hTj

/-- **C1.** If the solver fails for some swept `T` — it never reaches the
final grid point, so the extraction of the terminal state raises — then the
run ends in an error that names a failed `T`, and the sweep never returns a
results list: a failed `T` is never recorded as (and so never
indistinguishable from) a successfully computed terminal matrix. -/
theorem solver_failure_flagged (K : Type) [Field K] (solver : SolveIvp K)
    (A B : M2 K) (U_A_flat : List K) (T0 : K) (T_vals : List K) (j : ℕ)
    (Tj : K) (e : K) (hTj : T_vals.get? j = some Tj)
    (hfail : integrateOne solver A B U_A_flat Tj = Except.error e) :
    (∃ e', sweep solver A B U_A_flat T0 T_vals = Except.error e') ∧
    ∀ res : List (M2 K), sweep solver A B U_A_flat T0 T_vals ≠ Except.ok res := by
  obtain ⟨e', he⟩ :=
    mapM_error_of_elem (integrateOne solver A B U_A_flat) T_vals j Tj e hTj hfail
  refine ⟨⟨e', by rw [sweep_eq_mapM, he]⟩, ?_⟩
  intro res hres
  rw [sweep_eq_mapM, he] at hres
  exact Except.noConfusion hres

/-- A solver that reaches every requested grid point and returns the zero
state everywhere (success case for concrete evaluation). -/
def okSolver : SolveIvp ℚ :=
  fun _ _ _ _ => ⟨true, (List.range 8).map fun _ => List.replicate (num_values + 1) 0⟩

/-- A solver that fails immediately: no grid point is ever produced. -/
def failSolver : SolveIvp ℚ :=
  fun _ _ _ _ => ⟨false, []⟩

/-- Witness for C2: a concrete one-element sweep over `ℚ` whose solver
succeeds, with the per-index conclusion instantiated. -/
theorem sweep_is_pure_map_witness :
    sweep okSolver 0 0 [] 0 [(1 : ℚ)] = Except.ok [(0 : M2 ℚ)] ∧
    ([(1 : ℚ)] : List ℚ).get? 0 = some 1 ∧
    ∃ U, integrateOne okSolver 0 0 [] (1 : ℚ) = Except.ok U ∧
      [(0 : M2 ℚ)].get? 0 = some U := by
  have hok : sweep okSolver 0 0 [] 0 [(1 : ℚ)] = Except.ok [(0 : M2 ℚ)] := by rfl
  exact ⟨hok, rfl,
    (sweep_is_pure_map ℚ okSolver 0 0 [] 0 [(1 : ℚ)]).2 [(0 : M2 ℚ)] 0 1 hok rfl⟩

/-- Witness for C1: a concrete one-element sweep over `ℚ` whose solver
fails; the run errors with the failed `T` and is never `ok`. -/
theorem solver_failure_flagged_witness :
    ([(1 : ℚ)] : List ℚ).get? 0 = some 1 ∧
    integrateOne failSolver 0 0 [] (1 : ℚ) = Except.error 1 ∧
    ∀ res : List (M2 ℚ), sweep failSolver 0 0 [] 0 [(1 : ℚ)] ≠ Except.ok res := by
  have hfail : integrateOne failSolver 0 0 [] (1 : ℚ) = Except.error 1 := by rfl
  exact ⟨rfl, hfail,
    (solver_failure_flagged ℚ failSolver 0 0 [] 0 [(1 : ℚ)] 0 1 1 rfl hfail).2⟩

/-! ## The deviation analysis (cell 7) -/

/-- The body of `for j in range(len(T_list))`: read `U_T_list[j]` (an
out-of-range index raises, modeled as `none`), form
`approx_B_diag = np.conj(U_T.T) @ B @ U_T`, append it, and append
`np.absolute(approx_B_diag[0][1])`.  The magnitude function `mag` is the
external `np.absolute`. -/
def analysisGo [Field K] (mag : Cx K → K) (Bmat : M2 K)
    (U_T_list : List (M2 K)) (accM : List (M2 K)) (accD : List K) :
    List ℕ → Option (List (M2 K) × List K)
  | [] => some (accM, accD)
  | j :: rest =>
    match U_T_list.get? j with
    | none => none
    | some U_T =>
      analysisGo mag Bmat U_T_list
        (accM ++ [U_T.conjT * Bmat * U_T])
        (accD ++ [mag ((U_T.conjT * Bmat * U_T).e01)]) rest

/-- The full analysis loop: `approx_B_diag_list` and
`off_diag_elements_of_approx_B_list` accumulated over
`range(len(T_list))` starting from empty lists. -/
def analysisLoop [Field K] (mag : Cx K → K) (T_vals : List K)
    (Bmat : M2 K) (U_T_list : List (M2 K)) :
    Option (List (M2 K) × List K) :=
  analysisGo mag Bmat U_T_list [] [] (List.range T_vals.length)

/-- Unrolling the analysis loop over a contiguous index range. -/
lemma analysisGo_range' [Field K] (mag : Cx K → K) (Bmat : M2 K)
    (U_T_list : List (M2 K)) :
    ∀ (count start : ℕ) (accM : List (M2 K)) (accD : List K),
      start + count ≤ U_T_list.length →
      analysisGo mag Bmat U_T_list accM accD (List.range' start count) =
        some
          (accM ++ ((U_T_list.drop start).take count).map
            (fun U => U.conjT * Bmat * U),
           accD ++ ((U_T_list.drop start).take count).map
            (fun U => mag ((U.conjT * Bmat * U).e01))) := by
  intro count
  induction count with
  | zero => intro start accM accD h; simp [analysisGo]
  | succ c ih =>
    intro start accM accD h
    have hstart : start < U_T_list.length := by omega
    have hget : U_T_list.get? start = some (U_T_list.get ⟨start, hstart⟩) :=
      List.get?_eq_get hstart
    have hdrop : U_T_list.drop start =
        U_T_list.get ⟨start, hstart⟩ :: U_T_list.drop (start + 1) :=
      List.drop_eq_get_cons hstart
    rw [List.range'_succ, analysisGo, hget]
    show analysisGo mag Bmat U_T_list
      (accM ++ [(U_T_list.get ⟨start, hstart⟩).conjT * Bmat *
        U_T_list.get ⟨start, hstart⟩])
      (accD ++ [mag (((U_T_list.get ⟨start, hstart⟩).conjT * Bmat *
        U_T_list.get ⟨start, hstart⟩).e01)])
      (List.range' (start + 1) c) = _
    rw [ih (start + 1) _ _ (by omega)]
    rw [hdrop]
    simp only [List.take_succ_cons, List.map_cons, List.append_assoc,
      List.singleton_append]

/-- **C4.** For each swept `T`, the deviation analysis computes
`U(T)† · B · U(T)` (conjugate transpose on the left factor) and reports
`D(T) = np.absolute` of that matrix's `(0,1)` entry: the loop over indexed
accumulators equals the per-element map. -/
theorem analysis_reports_offdiag (Bmat : M2 ℝ) (T_vals : List ℝ)
    (U_T_list : List (M2 ℝ)) (hlen : U_T_list.length = T_vals.length) :
    analysisLoop Cabs T_vals Bmat U_T_list =
      some (U_T_list.map fun U => U.conjT * Bmat * U,
            U_T_list.map fun U => Cabs ((U.conjT * Bmat * U).e01)) := by
  rw [analysisLoop, ← hlen, List.range_eq_range']
  rw [analysisGo_range' Cabs Bmat U_T_list U_T_list.length 0 [] [] (by omega)]
  simp

/-- Witness for C4: a concrete one-element analysis over `ℝ`. -/
theorem analysis_reports_offdiag_witness :
    ([(1 : M2 ℝ)] : List (M2 ℝ)).length = ([(1 : ℝ)] : List ℝ).length ∧
    analysisLoop Cabs [(1 : ℝ)] (1 : M2 ℝ) [(1 : M2 ℝ)] =
      some ([(1 : M2 ℝ).conjT * (1 : M2 ℝ) * (1 : M2 ℝ)],
            [Cabs (((1 : M2 ℝ).conjT * (1 : M2 ℝ) * (1 : M2 ℝ)).e01)]) :=
  ⟨rfl, analysis_reports_offdiag (1 : M2 ℝ) [(1 : ℝ)] [(1 : M2 ℝ)] rfl⟩

/-! ## The configured sweep values (cell 3) -/

/-- `T_list = [10**(-1 + j * .25) for j in range(18)]`. -/
noncomputable def T_list : List ℝ :=
  (List.range 18).map fun j : ℕ => (10 : ℝ) ^ ((-1 : ℝ) + (j : ℝ) * 0.25)

/-- The `j`-th configured sweep value. -/
lemma T_list_get? (j : ℕ) (h : j < 18) :
    T_list.get? j = some ((10 : ℝ) ^ ((-1 : ℝ) + (j : ℝ) * 0.25)) := by
  rw [T_list, List.get?_map, List.get?_range h]
  rfl

/-- The `j`-th configured sweep value, through `getD`. -/
lemma T_list_getD (j : ℕ) (h : j < 18) :
    T_list.getD j 0 = (10 : ℝ) ^ ((-1 : ℝ) + (j : ℝ) * 0.25) := by
  rw [List.getD_eq_getD_get?, T_list_get? j h]
  rfl

/-- Rational bracket for `10 ^ 3.25`. -/
lemma ten_rpow_bounds :
    1778 < (10 : ℝ) ^ ((13 : ℝ) / 4) ∧ (10 : ℝ) ^ ((13 : ℝ) / 4) < 1779 := by
  have hx : (0 : ℝ) < (10 : ℝ) ^ ((13 : ℝ) / 4) :=
    Real.rpow_pos_of_pos (by norm_num) _
  have hx4 : ((10 : ℝ) ^ ((13 : ℝ) / 4)) ^ (4 : ℕ) = (10 : ℝ) ^ (13 : ℕ) := by
    rw [← Real.rpow_natCast ((10 : ℝ) ^ ((13 : ℝ) / 4)) 4,
      ← Real.rpow_mul (by norm_num : (0 : ℝ) ≤ 10),
      ← Real.rpow_natCast (10 : ℝ) 13]
    norm_num
  constructor
  · refine lt_of_pow_lt_pow_left 4 (le_of_lt hx) ?_
    rw [hx4]; norm_num
  · refine lt_of_pow_lt_pow_left 4 (by norm_num) ?_
    rw [hx4]; norm_num

/-- The last configured sweep value is `10 ^ 3.25`. -/
lemma T_list_last_eq : T_list.getD 17 0 = (10 : ℝ) ^ ((13 : ℝ) / 4) := by
  rw [T_list_getD 17 (by norm_num)]
  norm_num

/-- The `k`-th grid point of `np.linspace`. -/
lemma linspace_get? [Field K] (a b : K) (n k : ℕ) (h : k < n) :
    (linspace a b n).get? k =
      some (a + (b - a) * (k : K) / ((n - 1 : ℕ) : K)) := by
  rw [linspace, List.get?_map, List.get?_range h]
  rfl

/-- The `k`-th grid point of `np.linspace`, through `getD`. -/
lemma linspace_getD [Field K] (a b : K) (n k : ℕ) (h : k < n) :
    (linspace a b n).getD k 0 =
      a + (b - a) * (k : K) / ((n - 1 : ℕ) : K) := by
  rw [List.getD_eq_getD_get?, linspace_get? a b n k h]
  rfl

/-- An in-range position holds its `getD` value. -/
lemma get?_eq_some_getD {A : Type} (r : List A) (n : ℕ) (d : A)
    (h : n < r.length) : r.get? n = some (r.getD n d) := by
  rw [List.get?_eq_get h, List.getD_eq_getElem r d h]
  rfl

/-- When the solver produced all 8 state rows out to the final grid index,
the extraction reads exactly each row's entry at that index. -/
lemma extractTerminal_full [Field K] (b : Bool) (ys : List (List K))
    (h8 : ys.length = 8) (hrow : ∀ r ∈ ys, r.length = num_values + 1) :
    extractTerminal ⟨b, ys⟩ num_values =
      some (ys.map fun r => r.getD num_values 0) := by
  rcases ys with _ | ⟨r0, ys⟩
  · simp at h8
  rcases ys with _ | ⟨r1, ys⟩
  · simp at h8
  rcases ys with _ | ⟨r2, ys⟩
  · simp at h8
  rcases ys with _ | ⟨r3, ys⟩
  · simp at h8
  rcases ys with _ | ⟨r4, ys⟩
  · simp at h8
  rcases ys with _ | ⟨r5, ys⟩
  · simp at h8
  rcases ys with _ | ⟨r6, ys⟩
  · simp at h8
  rcases ys with _ | ⟨r7, ys⟩
  · simp at h8
  rcases ys with _ | ⟨r8, ys⟩
  · have hlt : num_values < r0.length := by
      rw [hrow r0 (by simp)]; omega
    have h0 := get?_eq_some_getD r0 num_values 0 (by rw [hrow r0 (by simp)]; omega)
    have h1 := get?_eq_some_getD r1 num_values 0 (by rw [hrow r1 (by simp)]; omega)
    have h2 := get?_eq_some_getD r2 num_values 0 (by rw [hrow r2 (by simp)]; omega)
    have h3 := get?_eq_some_getD r3 num_values 0 (by rw [hrow r3 (by simp)]; omega)
    have h4 := get?_eq_some_getD r4 num_values 0 (by rw [hrow r4 (by simp)]; omega)
    have h5 := get?_eq_some_getD r5 num_values 0 (by rw [hrow r5 (by simp)]; omega)
    have h6 := get?_eq_some_getD r6 num_values 0 (by rw [hrow r6 (by simp)]; omega)
    have h7 := get?_eq_some_getD r7 num_values 0 (by rw [hrow r7 (by simp)]; omega)
    have hstep :
        extractTerminal (⟨b, [r0, r1, r2, r3, r4, r5, r6, r7]⟩ : SolResult K)
            num_values =
          (r0.get? num_values).bind fun v0 =>
          (r1.get? num_values).bind fun v1 =>
          (r2.get? num_values).bind fun v2 =>
          (r3.get? num_values).bind fun v3 =>
          (r4.get? num_values).bind fun v4 =>
          (r5.get? num_values).bind fun v5 =>
          (r6.get? num_values).bind fun v6 =>
          (r7.get? num_values).bind fun v7 =>
          some [v0, v1, v2, v3, v4, v5, v6, v7] := rfl
    rw [hstep, h0, h1, h2, h3, h4, h5, h6, h7]
    rfl
  · simp at h8

/-- **C9 (counterexample).** The sweep's largest configured value is
`T_list[17] = 10 ^ 3.25 ≈ 1778.3`, not about `562` (`10 ^ 2.75`): the
log-spaced range ends near 1778, refuting the claimed endpoint. -/
theorem T_list_last_not_562 :
    T_list.getD 17 0 = (10 : ℝ) ^ ((13 : ℝ) / 4) ∧
    1778 < T_list.getD 17 0 ∧ T_list.getD 17 0 < 1779 := by
  refine ⟨T_list_last_eq, ?_, ?_⟩ <;> rw [T_list_last_eq]
  · exact ten_rpow_bounds.1
  · exact ten_rpow_bounds.2

/-- **C9 (amended).** The sweep uses exactly 18 values
`T = 10 ^ (-1 + 0.25 j)`, `j = 0..17`, log-spaced from `0.1` to about
`1778`; each trajectory requests `num_values = 100` intervals, i.e. 101
equally spaced grid points from `0` to `T` ending at `t = T`; and the
terminal state is extracted from the solver output at the final grid index
`num_values` (one entry per state row) and decoded back to a 2×2 complex
matrix by `flat_to_matrix`. -/
theorem sweep_configuration :
    num_values = 100 ∧
    T_list.length = 18 ∧
    (∀ j : Fin 18, T_list.getD j.1 0 = (10 : ℝ) ^ ((-1 : ℝ) + (j.1 : ℝ) * 0.25)) ∧
    T_list.getD 0 0 = 1 / 10 ∧
    (1778 < T_list.getD 17 0 ∧ T_list.getD 17 0 < 1779) ∧
    (∀ T : ℝ,
      (linspace (0 : ℝ) T (num_values + 1)).length = 101 ∧
      (linspace (0 : ℝ) T (num_values + 1)).getD 0 0 = 0 ∧
      (linspace (0 : ℝ) T (num_values + 1)).getD num_values 0 = T ∧
      ∀ k : Fin num_values,
        (linspace (0 : ℝ) T (num_values + 1)).getD (k.1 + 1) 0 -
          (linspace (0 : ℝ) T (num_values + 1)).getD k.1 0 = T / 100) ∧
    (∀ (b : Bool) (ys : List (List ℝ)), ys.length = 8 →
      (∀ r ∈ ys, r.length = num_values + 1) →
      extractTerminal ⟨b, ys⟩ num_values =
        some (ys.map fun r => r.getD num_values 0)) ∧
    (∀ (solver : SolveIvp ℝ) (A B : M2 ℝ) (U_A_flat : List ℝ) (T : ℝ)
      (U : M2 ℝ),
      integrateOne solver A B U_A_flat T = Except.ok U →
      ∃ flat,
        extractTerminal
          (solver (fun t y => matrix_differential_equation t y fun s => H A B T s)
            (0, T) U_A_flat (linspace 0 T (num_values + 1))) num_values =
          some flat ∧
        flat_to_matrix flat = some U) := by
  refine ⟨rfl, by simp [T_list], fun j => T_list_getD j.1 j.2, ?_, ?_, ?_, ?_, ?_⟩
  · rw [T_list_getD 0 (by norm_num),
      show ((-1 : ℝ) + ((0 : ℕ) : ℝ) * 0.25) = ((-1 : ℤ) : ℝ) by push_cast; ring,
      Real.rpow_intCast]
    norm_num
  · rw [T_list_last_eq]
    exact ten_rpow_bounds
  · intro T
    refine ⟨by simp [linspace, num_values], ?_, ?_, ?_⟩
    · rw [linspace_getD 0 T (num_values + 1) 0 (Nat.succ_pos _)]
      norm_num
    · rw [linspace_getD 0 T (num_values + 1) num_values (Nat.lt_succ_self _)]
      show (0 : ℝ) + (T - 0) * ((num_values : ℕ) : ℝ) / ((num_values : ℕ) : ℝ) = T
      norm_num [num_values]
    · intro k
      rw [linspace_getD 0 T (num_values + 1) (k.1 + 1) (Nat.succ_lt_succ k.2),
        linspace_getD 0 T (num_values + 1) k.1 (Nat.lt_succ_of_lt k.2)]
      show (0 : ℝ) + (T - 0) * ((k.1 + 1 : ℕ) : ℝ) / ((num_values : ℕ) : ℝ) -
        ((0 : ℝ) + (T - 0) * ((k.1 : ℕ) : ℝ) / ((num_values : ℕ) : ℝ)) = T / 100
      rw [show ((num_values : ℕ) : ℝ) = 100 by norm_num [num_values]]
      push_cast
      ring
  · exact fun b ys h8 hrow => extractTerminal_full b ys h8 hrow
  · intro solver A B U_A_flat T U
    simp only [integrateOne]
    split
    · intro h
      exact Except.noConfusion h
    next flat hext =>
      split
      · intro h
        exact Except.noConfusion h
      next U1 hf =>
        intro h
        exact ⟨flat, hext, by rw [hf, Except.ok.inj h]⟩

/-- A real-valued solver that reaches every grid point with zero state. -/
def okSolverR : SolveIvp ℝ :=
  fun _ _ _ _ => ⟨true, List.replicate 8 (List.replicate (num_values + 1) 0)⟩

/-- Witness for C9: the extraction and decoding conjuncts instantiated at a
concrete full-grid solver output over `ℝ`. -/
theorem sweep_configuration_witness :
    (List.replicate 8 (List.replicate (num_values + 1) (0 : ℝ))).length = 8 ∧
    (∀ r ∈ List.replicate 8 (List.replicate (num_values + 1) (0 : ℝ)),
      r.length = num_values + 1) ∧
    extractTerminal
        ⟨true, List.replicate 8 (List.replicate (num_values + 1) (0 : ℝ))⟩
        num_values =
      some ((List.replicate 8 (List.replicate (num_values + 1) (0 : ℝ))).map
        fun r => r.getD num_values 0) ∧
    integrateOne okSolverR 0 0 [] 1 = Except.ok (0 : M2 ℝ) ∧
    ∃ flat,
      extractTerminal
        (okSolverR
          (fun t y => matrix_differential_equation t y fun s => H (0 : M2 ℝ) 0 1 s)
          (0, 1) [] (linspace 0 1 (num_values + 1))) num_values = some flat ∧
      flat_to_matrix flat = some (0 : M2 ℝ) := by
  have h8 : (List.replicate 8 (List.replicate (num_values + 1) (0 : ℝ))).length = 8 := by
    simp
  have hrow : ∀ r ∈ List.replicate 8 (List.replicate (num_values + 1) (0 : ℝ)),
      r.length = num_values + 1 := by
    intro r hr
    rw [List.eq_of_mem_replicate hr]
    simp
  have hok : integrateOne okSolverR 0 0 [] 1 = Except.ok (0 : M2 ℝ) := by rfl
  exact ⟨h8, hrow, sweep_configuration.2.2.2.2.2.2.1 true _ h8 hrow, hok,
    sweep_configuration.2.2.2.2.2.2.2 okSolverR 0 0 [] 1 0 hok⟩

/-- **C10.** For every fixed `T ≠ 0` the interpolator is a total function
of `t` — it returns `(1 - t/T) • A + (t/T) • B` for every `t`, including
`t` outside `[0, T]`; its only failure mode is the unguarded Python
division `t / T` at `T = 0` (a `ZeroDivisionError`), which never occurs for
the configured sweep values since every entry of `T_list` is positive. -/
theorem H_total_off_grid (K : Type) [Field K] [DecidableEq K]
    (A B : M2 K) (T t : K) :
    (T ≠ 0 → H_run A B T t = some ((1 - t / T) • A + (t / T) • B)) ∧
    H_run A B 0 t = none ∧
    (∀ j : Fin 18, 0 < T_list.getD j.1 0) := by
  refine ⟨?_, ?_, ?_⟩
  · intro hT
    rw [H_run, pydiv, if_neg hT]
    rfl
  · rw [H_run, pydiv, if_pos rfl]
    rfl
  · intro j
    rw [T_list_getD j.1 j.2]
    exact Real.rpow_pos_of_pos (by norm_num) _

/-- Witness for C10: a nonzero duration and an evaluation time outside
`[0, T]`, over `ℚ`. -/
theorem H_total_off_grid_witness :
    ((1 : ℚ) ≠ 0) ∧
    H_run (0 : M2 ℚ) 0 1 5 =
      some (((1 : ℚ) - (5 : ℚ) / 1) • (0 : M2 ℚ) + ((5 : ℚ) / 1) • (0 : M2 ℚ)) :=
  ⟨by norm_num, (H_total_off_grid ℚ 0 0 1 5).1 (by norm_num)⟩

/-- Witness for C5: concrete endpoint matrices over `ℚ` and `T = 2`. -/
theorem H_endpoints_witness :
    (0 : ℚ) < 2 ∧
    H (⟨⟨1, 2⟩, ⟨3, 4⟩, ⟨5, 6⟩, ⟨7, 8⟩⟩ : M2 ℚ)
        ⟨⟨2, 1⟩, ⟨0, 3⟩, ⟨4, 0⟩, ⟨5, 5⟩⟩ 2 0 =
      ⟨⟨1, 2⟩, ⟨3, 4⟩, ⟨5, 6⟩, ⟨7, 8⟩⟩ ∧
    H (⟨⟨1, 2⟩, ⟨3, 4⟩, ⟨5, 6⟩, ⟨7, 8⟩⟩ : M2 ℚ)
        ⟨⟨2, 1⟩, ⟨0, 3⟩, ⟨4, 0⟩, ⟨5, 5⟩⟩ 2 2 =
      ⟨⟨2, 1⟩, ⟨0, 3⟩, ⟨4, 0⟩, ⟨5, 5⟩⟩ :=
  ⟨by norm_num,
    (H_endpoints ℚ ⟨⟨1, 2⟩, ⟨3, 4⟩, ⟨5, 6⟩, ⟨7, 8⟩⟩
      ⟨⟨2, 1⟩, ⟨0, 3⟩, ⟨4, 0⟩, ⟨5, 5⟩⟩ 2 (by norm_num)).1,
    (H_endpoints ℚ ⟨⟨1, 2⟩, ⟨3, 4⟩, ⟨5, 6⟩, ⟨7, 8⟩⟩
      ⟨⟨2, 1⟩, ⟨0, 3⟩, ⟨4, 0⟩, ⟨5, 5⟩⟩ 2 (by norm_num)).2⟩

/-- Witness for C6: concrete Hermitian matrices over `ℚ`, `T = 1`,
`t = 0`. -/
theorem H_hermitian_witness :
    ((⟨⟨1, 0⟩, ⟨2, 3⟩, ⟨2, -3⟩, ⟨4, 0⟩⟩ : M2 ℚ).conjT =
      ⟨⟨1, 0⟩, ⟨2, 3⟩, ⟨2, -3⟩, ⟨4, 0⟩⟩) ∧
    ((⟨⟨5, 0⟩, ⟨1, -2⟩, ⟨1, 2⟩, ⟨6, 0⟩⟩ : M2 ℚ).conjT =
      ⟨⟨5, 0⟩, ⟨1, -2⟩, ⟨1, 2⟩, ⟨6, 0⟩⟩) ∧
    (0 : ℚ) < 1 ∧ (0 : ℚ) ≤ 0 ∧ (0 : ℚ) ≤ 1 ∧
    (H (⟨⟨1, 0⟩, ⟨2, 3⟩, ⟨2, -3⟩, ⟨4, 0⟩⟩ : M2 ℚ)
        ⟨⟨5, 0⟩, ⟨1, -2⟩, ⟨1, 2⟩, ⟨6, 0⟩⟩ 1 0).conjT =
      H ⟨⟨1, 0⟩, ⟨2, 3⟩, ⟨2, -3⟩, ⟨4, 0⟩⟩ ⟨⟨5, 0⟩, ⟨1, -2⟩, ⟨1, 2⟩, ⟨6, 0⟩⟩ 1 0 :=
  ⟨by decide, by decide, by decide, by decide, by decide,
    H_hermitian ℚ ⟨⟨1, 0⟩, ⟨2, 3⟩, ⟨2, -3⟩, ⟨4, 0⟩⟩
      ⟨⟨5, 0⟩, ⟨1, -2⟩, ⟨1, 2⟩, ⟨6, 0⟩⟩ 1 0 (by decide) (by decide) (by decide)
      (by decide) (by decide)⟩

/-- Witness for C8: a concrete Hermitian `B` and the identity unitary over
`ℝ`. -/
theorem rotated_hermitian_witness :
    ((⟨⟨1, 0⟩, ⟨0, 2⟩, ⟨0, -2⟩, ⟨3, 0⟩⟩ : M2 ℝ).conjT =
      ⟨⟨1, 0⟩, ⟨0, 2⟩, ⟨0, -2⟩, ⟨3, 0⟩⟩) ∧
    ((1 : M2 ℝ).conjT * 1 = 1) ∧
    ((rotated (⟨⟨1, 0⟩, ⟨0, 2⟩, ⟨0, -2⟩, ⟨3, 0⟩⟩ : M2 ℝ) 1).conjT =
        rotated ⟨⟨1, 0⟩, ⟨0, 2⟩, ⟨0, -2⟩, ⟨3, 0⟩⟩ 1 ∧
      (rotated (⟨⟨1, 0⟩, ⟨0, 2⟩, ⟨0, -2⟩, ⟨3, 0⟩⟩ : M2 ℝ) 1).e10 =
        (rotated (⟨⟨1, 0⟩, ⟨0, 2⟩, ⟨0, -2⟩, ⟨3, 0⟩⟩ : M2 ℝ) 1).e01.conj ∧
      Cabs ((rotated (⟨⟨1, 0⟩, ⟨0, 2⟩, ⟨0, -2⟩, ⟨3, 0⟩⟩ : M2 ℝ) 1).e10) =
        Cabs ((rotated (⟨⟨1, 0⟩, ⟨0, 2⟩, ⟨0, -2⟩, ⟨3, 0⟩⟩ : M2 ℝ) 1).e01)) := by
  have hB : (⟨⟨1, 0⟩, ⟨0, 2⟩, ⟨0, -2⟩, ⟨3, 0⟩⟩ : M2 ℝ).conjT =
      ⟨⟨1, 0⟩, ⟨0, 2⟩, ⟨0, -2⟩, ⟨3, 0⟩⟩ := by
    ext <;> simp [M2.conjT, Cx.conj]
  have hU : (1 : M2 ℝ).conjT * 1 = 1 := by
    ext <;> simp [M2.conjT, Cx.conj] <;> ring
  exact ⟨hB, hU, rotated_hermitian ⟨⟨1, 0⟩, ⟨0, 2⟩, ⟨0, -2⟩, ⟨3, 0⟩⟩ 1 hB hU⟩
